import Mathlib

/-!
Shallow embedding of the core retrieval engine of `rrlmgraph-mcp`
(`src/types.ts` + `src/db/sqlite_reader.ts`): the `SQLiteGraph` class with
seed-node resolution, the recursive-CTE BFS traversal, TF-IDF query-vector
construction, cosine re-ranking, budget-constrained context assembly, and the
task-trace log.

Modelling conventions:
* JavaScript `number` is modelled by an arbitrary `LinearOrderedField α`
  (instantiated at `ℚ` for executable witnesses and at `ℝ` for the claims
  about the `Math.log` / `Math.sqrt` formulas).  `Math.log` and `Math.sqrt`
  are passed in as explicit function parameters (record `JsMath`), since the
  structural claims hold for every choice of these functions.
* SQL tables are association lists in row order; `LIMIT 1` row choice for
  un-`ORDER`ed queries is modelled as first row in table order.
* `TEXT` columns that may be `NULL` are `Option String`; the `embedding`
  column stores a JSON array as text, modelled directly as
  `Option (List α)` (a JSON string that fails to parse behaves like `NULL`,
  exactly as the `try { JSON.parse } catch` in the source).
-/

namespace Rrlmgraph

/-- Row of the `nodes` table (`NodeRow` in `src/types.ts`). -/
structure NodeRow (α : Type) where
  node_id : String
  name : String
  file : Option String := none
  node_type : Option String := none
  signature : Option String := none
  body_text : Option String := none
  roxygen_text : Option String := none
  complexity : Option α := none
  pagerank : Option α := none
  task_weight : Option α := none
  embedding : Option (List α) := none
  pkg_name : Option String := none
  pkg_version : Option String := none
  deriving Repr, DecidableEq

/-- Row of the `edges` table (`EdgeRow` in `src/types.ts`). -/
structure EdgeRow (α : Type) where
  edge_id : Nat
  source_id : String
  target_id : String
  edge_type : Option String := none
  weight : Option α := none
  metadata : Option String := none
  deriving Repr, DecidableEq

/-- Row of the `task_traces` table (`TaskTraceRow` in `src/types.ts`).
`nodes_json` stores `JSON.stringify` of a string list; JSON encoding of
string lists is injective, so the list itself is stored. -/
structure TaskTraceRow (α : Type) where
  trace_id : Nat
  query : Option String := none
  nodes_json : List String := []
  polarity : α
  session_id : Option String := none
  created_at : Option String := none
  deriving Repr, DecidableEq

/-- Row of the `tfidf_vocab` table (`TfidfVocabRow` in `src/types.ts`). -/
structure TfidfVocabRow (α : Type) where
  term : String
  idf : α
  doc_count : Int := 0
  term_count : Int := 0
  deriving Repr, DecidableEq

/-- The SQLite snapshot the `SQLiteGraph` class operates on: the four tables
used by the modelled methods.  `vocab` doubles as the in-memory
`tfidfVocab : Map<string, TfidfVocabRow>` (a `Map` iterates in insertion
order, i.e. table order, and `_loadVocab` copies the table wholesale). -/
structure Snapshot (α : Type) where
  nodes : List (NodeRow α)
  edges : List (EdgeRow α)
  traces : List (TaskTraceRow α) := []
  vocab : List (TfidfVocabRow α) := []
  deriving Repr

/-- The ambient JavaScript math functions the engine calls, abstracted:
`Math.log`, `Math.sqrt`, and the SQLite FTS5 `bm25` rank used by
`ORDER BY rank` in `_findSeedNode` (an opaque score of the query tokens
against a node; every structural claim holds for any rank function). -/
structure JsMath (α : Type) where
  log : α → α
  sqrt : α → α
  ftsRank : List String → NodeRow α → α

/-! ### Token counting (`estimateTokens`) -/

/-- Model of `estimateTokens` from `sqlite_reader.ts`: `Math.ceil(text.length / 3.5)`.
Since `len / 3.5 = 2 * len / 7` exactly and the quotient is at least `1/7`
away from any non-attained integer, the double-precision evaluation equals
the exact ceiling `⌈2 * len / 7⌉ = (2 * len + 6) / 7` in `ℕ`. -/
def estimateTokens (len : Nat) : Nat :=
  (2 * len + 6) / 7

/-! ### Cosine similarity (`cosineSimilarity`) -/

variable {α : Type} [LinearOrderedField α]

/-- Model of `cosineSimilarity` from `sqlite_reader.ts`:
returns 0 on length mismatch or empty inputs, otherwise
`dot / denom` where `dot` is the pairwise product sum,
`denom = sqrt(normA) * sqrt(normB)` over the squared-component sums, and
an explicit `denom === 0` guard returns 0 (the source binds `dot`,
`normA`, `normB`, `denom` in one accumulation loop; they are inlined
here). -/
def cosineSimilarity (sqrt : α → α) (a b : List α) : α :=
  if a.length ≠ b.length ∨ a.length = 0 then 0
  else
    if sqrt ((a.map (fun x => x * x)).sum) *
        sqrt ((b.map (fun x => x * x)).sum) = 0 then 0
    else
      (List.zipWith (· * ·) a b).sum /
        (sqrt ((a.map (fun x => x * x)).sum) *
          sqrt ((b.map (fun x => x * x)).sum))

/-! ### Query tokenisation (`tokenize`) -/

/-- Character normalisation inside `tokenize`: the regexp replacement
`.replace(/[^a-z0-9_.]/g, " ")` applied after `.toLowerCase()`. -/
def normalizeChar (c : Char) : Char :=
  if ('a' ≤ c ∧ c ≤ 'z') ∨ ('0' ≤ c ∧ c ≤ '9') ∨ c = '_' ∨ c = '.' then c
  else ' '

/-- Split a character list on spaces, producing the (possibly empty) pieces
between separators, like `String.split (· = ' ')`. -/
def splitSpaces : List Char → List Char → List (List Char)
  | [], acc => [acc.reverse]
  | c :: rest, acc =>
      if c = ' ' then acc.reverse :: splitSpaces rest []
      else splitSpaces rest (c :: acc)

/-- Model of `tokenize` from `sqlite_reader.ts`: lower-case, replace every character
outside `[a-z0-9_.]` with a space, split on whitespace runs, and drop tokens
of length ≤ 1 (splitting on single spaces instead of runs only introduces
empty pieces, which the length filter removes either way; after the
replacement the only whitespace character left is the space). -/
def tokenize (text : String) : List String :=
  let cs := text.toList.map (fun c => normalizeChar c.toLower)
  ((splitSpaces cs []).map List.asString).filter (fun t => 1 < t.length)

/-! ### TF-IDF query vector (`buildQueryVector`) -/

/-- One step of building the `tf` map: `tf.set(t, (tf.get(t) ?? 0) + 1)` on a
JavaScript `Map`, which updates in place (keeping insertion order) or
appends a new key. -/
def bumpTF : List (String × Nat) → String → List (String × Nat)
  | [], t => [(t, 1)]
  | (s, c) :: rest, t =>
      if s = t then (s, c + 1) :: rest else (s, c) :: bumpTF rest t

/-- The `tf` map of `buildQueryVector`, as an association list in
`Map` insertion order (first occurrence of each token). -/
def tfList (tokens : List String) : List (String × Nat) :=
  tokens.foldl bumpTF []

/-- Model of `buildQueryVector` from `sqlite_reader.ts`: for each `tf` entry whose
term is in the vocabulary, weight
`log(1 + count) / log(1 + tokens.length) * idf`; other terms are skipped.
The result keeps the `tf` map's insertion order, as a `Map` does. -/
def buildQueryVector (log : α → α) (query : String)
    (vocab : List (TfidfVocabRow α)) : List (String × α) :=
  let tokens := tokenize query
  (tfList tokens).filterMap fun tc =>
    match vocab.find? (fun r => r.term = tc.1) with
    | some row =>
        some (tc.1, log (1 + (tc.2 : α)) / log (1 + (tokens.length : α)) * row.idf)
    | none => none

/-! ### Seed node discovery (`_findSeedNode`) -/

/-- JavaScript truthiness of a nullable string: `null`, `undefined` and the
empty string are falsy. -/
def jsTruthy : Option String → Bool
  | some s => s ≠ ""
  | none => false

/-- Tier 1 of `_findSeedNode`: `if (seedNodeName)` (empty string is falsy),
then `SELECT node_id FROM nodes WHERE name = ? LIMIT 1`; the un-`ORDER`ed
`LIMIT 1` is modelled as the first row in table order. -/
def seedByName (nodes : List (NodeRow α)) (seedNodeName : Option String) :
    Option String :=
  match seedNodeName with
  | some nm =>
      if nm = "" then none
      else (nodes.find? (fun n => n.name = nm)).map (fun n => n.node_id)
  | none => none

/-- FTS5 `unicode61` tokens of a text: maximal alphanumeric runs,
lower-cased (ASCII model; note `_` and `.` are separator characters for
`unicode61`, unlike in `tokenize`). -/
def ftsTokenize (text : String) : List String :=
  let cs := text.toList.map fun c =>
    let l := c.toLower
    if ('a' ≤ l ∧ l ≤ 'z') ∨ ('0' ≤ l ∧ l ≤ '9') then l else ' '
  ((splitSpaces cs []).map List.asString).filter (fun t => t ≠ "")

/-- Tokens the `nodes_fts` virtual table indexes for one node: its indexed
columns `name`, `body_text`, `roxygen_text`. -/
def nodeFtsTokens (n : NodeRow α) : List String :=
  ftsTokenize n.name ++ ftsTokenize (n.body_text.getD "") ++
    ftsTokenize (n.roxygen_text.getD "")

/-- Whether a node matches the `OR`-query built from the first ten query
tokens.  One modelling simplification, irrelevant to every claim settled
here (no claim depends on which node the FTS tier picks, only that it picks
an existing node or nothing): each query bareword is treated as a single
term occurring in the node's token list, rather than as a `unicode61`
phrase, and the `MATCH`-syntax-error path (`.` inside a bareword throws, is
caught, and falls through to tier 3) is not distinguished. -/
def ftsMatches (ts : List String) (n : NodeRow α) : Bool :=
  ts.any (fun t => (nodeFtsTokens n).contains t)

/-- Model of `ORDER BY rank LIMIT 1`: smallest bm25 rank wins; ties keep the earlier
row.  The fold keeps the current best, matching a stable ordering. -/
def minByRank (rank : NodeRow α → α) : List (NodeRow α) → Option (NodeRow α)
  | [] => none
  | n :: rest =>
      some (rest.foldl (fun best m => if rank best ≤ rank m then best else m) n)

/-- Tier 2 of `_findSeedNode`: FTS5 search with the first ten query tokens
joined by `OR` (an empty join string is falsy, so no query is run). -/
def ftsSeed (M : JsMath α) (nodes : List (NodeRow α)) (query : String) :
    Option String :=
  let ts := (tokenize query).take 10
  if ts = [] then none
  else (minByRank (M.ftsRank ts) (nodes.filter (ftsMatches ts))).map
    (fun n => n.node_id)

/-- Comparator for `ORDER BY pagerank DESC` on the nullable `pagerank` column:
SQLite treats `NULL` as smaller than every value, so `DESC` puts `NULL`s
last (the tier-4 query says `NULLS LAST` explicitly, to the same effect). -/
def pgDescLE : Option α → Option α → Bool
  | none, none => true
  | none, some _ => false
  | some _, none => true
  | some x, some y => decide (y ≤ x)

/-- The `ORDER BY pagerank DESC` row order as a relation on rows. -/
def pgDescRel (m n : NodeRow α) : Prop :=
  pgDescLE m.pagerank n.pagerank = true

instance : DecidableRel (pgDescRel (α := α)) :=
  fun m n => instDecidableEqBool _ _

/-- Model of `SELECT … FROM nodes ORDER BY pagerank DESC` (ties in implementation
order, modelled as a stable sort of table order). -/
def topByPagerank (nodes : List (NodeRow α)) : List (NodeRow α) :=
  nodes.insertionSort pgDescRel

/-- One iteration of tier 3's scoring loop: score a row as (overlap of its
name tokens with the query-token set) + pagerank, and keep it only when it
strictly beats the running best score. -/
def overlapStep (query : String) (best : α × Option String) (row : NodeRow α) :
    α × Option String :=
  let overlap := ((tokenize row.name).filter
    (fun t => (tokenize query).contains t)).length
  let score := (overlap : α) + row.pagerank.getD 0
  if best.1 < score then (score, some row.node_id) else best

/-- Tier 3 of `_findSeedNode`: over the 200 highest-pagerank rows, run the
scoring loop with running best initialised to `(0, null)`. -/
def overlapSeed (nodes : List (NodeRow α)) (query : String) : Option String :=
  (((topByPagerank nodes).take 200).foldl (overlapStep query)
    ((0 : α), (none : Option String))).2

/-- Tier 4 of `_findSeedNode`:
`SELECT node_id FROM nodes ORDER BY pagerank DESC NULLS LAST LIMIT 1`. -/
def topSeed (nodes : List (NodeRow α)) : Option String :=
  (topByPagerank nodes).head?.map (fun n => n.node_id)

/-- Model of `_findSeedNode` from `sqlite_reader.ts`: the four-tier fallback chain,
each tier consulted only when every earlier tier produced nothing. -/
def findSeedNode (M : JsMath α) (s : Snapshot α) (query : String)
    (seedNodeName : Option String) : Option String :=
  match seedByName s.nodes seedNodeName with
  | some id => some id
  | none =>
    match ftsSeed M s.nodes query with
    | some id => some id
    | none =>
      match overlapSeed s.nodes query with
      | some id => some id
      | none => topSeed s.nodes

/-! ### Bounded BFS (`BFS_SQL`) -/

/-- Targets of the directed edges leaving `n` (the recursive step of the
CTE joins `edges e ON e.source_id = bfs.node_id` and selects
`e.target_id`). -/
def successors (edges : List (EdgeRow α)) (n : String) : List String :=
  edges.filterMap (fun e => if e.source_id = n then some e.target_id else none)

/-- Depth-`d` rows of the recursive CTE `bfs(node_id, depth)`.  The CTE's
`UNION` deduplicates `(node_id, depth)` pairs, and a pair derived in `k`
recursive steps always has depth `k`, so the CTE's fixpoint contains
`(n, d)` exactly when `n` is an endpoint of a length-`d` edge walk from the
seed with `d ≤ maxDepth` — which is exactly membership in this level
(duplicates inside one level are irrelevant after the `GROUP BY`). -/
def bfsLevel (edges : List (EdgeRow α)) (seed : String) (maxDepth : Nat) :
    Nat → List String
  | 0 => [seed]
  | d + 1 =>
      if d < maxDepth then
        ((bfsLevel edges seed maxDepth d).map (successors edges)).flatten
      else []

/-- Value of `MIN(bfs.depth)` for one node: the first depth `0 ≤ d ≤ maxDepth` whose
CTE level contains it. -/
def bfsMinDepth (edges : List (EdgeRow α)) (seed : String) (maxDepth : Nat)
    (n : String) : Option Nat :=
  (List.range (maxDepth + 1)).find?
    (fun d => decide (n ∈ bfsLevel edges seed maxDepth d))

/-- The distinct node ids in the CTE result (order irrelevant: the outer
query's `ORDER BY` decides the final order). -/
def bfsIds (edges : List (EdgeRow α)) (seed : String) (maxDepth : Nat) :
    List String :=
  (((List.range (maxDepth + 1)).map (bfsLevel edges seed maxDepth)).flatten).dedup

/-- Comparator for `ORDER BY depth ASC, n.pagerank DESC`. -/
def bfsRowLE (a b : NodeRow α × Nat) : Bool :=
  decide (a.2 < b.2) || (decide (a.2 = b.2) && pgDescLE a.1.pagerank b.1.pagerank)

/-- The `ORDER BY depth ASC, n.pagerank DESC` order as a relation. -/
def bfsRowRel (a b : NodeRow α × Nat) : Prop :=
  bfsRowLE a b = true

instance : DecidableRel (bfsRowRel (α := α)) :=
  fun a b => instDecidableEqBool _ _

instance : IsTotal (NodeRow α × Nat) (bfsRowRel (α := α)) where
  total a b := by
    have hiff : ∀ u v : NodeRow α × Nat, bfsRowRel u v ↔
        u.2 < v.2 ∨ (u.2 = v.2 ∧ pgDescLE u.1.pagerank v.1.pagerank = true) := by
      intro u v
      simp [bfsRowRel, bfsRowLE]
    have htot : ∀ x y : Option α, pgDescLE x y = true ∨ pgDescLE y x = true := by
      intro x y
      cases x <;> cases y <;> simp [pgDescLE, le_total]
    rcases Nat.lt_trichotomy a.2 b.2 with h | h | h
    · exact Or.inl ((hiff a b).mpr (Or.inl h))
    · rcases htot a.1.pagerank b.1.pagerank with hp | hp
      · exact Or.inl ((hiff a b).mpr (Or.inr ⟨h, hp⟩))
      · exact Or.inr ((hiff b a).mpr (Or.inr ⟨h.symm, hp⟩))
    · exact Or.inr ((hiff b a).mpr (Or.inl h))

instance : IsTrans (NodeRow α × Nat) (bfsRowRel (α := α)) where
  trans a b c hab hbc := by
    have hiff : ∀ u v : NodeRow α × Nat, bfsRowRel u v ↔
        u.2 < v.2 ∨ (u.2 = v.2 ∧ pgDescLE u.1.pagerank v.1.pagerank = true) := by
      intro u v
      simp [bfsRowRel, bfsRowLE]
    have htr : ∀ x y z : Option α, pgDescLE x y = true →
        pgDescLE y z = true → pgDescLE x z = true := by
      intro x y z h1 h2
      cases x <;> cases y <;> cases z <;> simp_all [pgDescLE]
      exact le_trans h2 h1
    rcases (hiff a b).mp hab with h1 | ⟨h1, hp1⟩ <;>
      rcases (hiff b c).mp hbc with h2 | ⟨h2, hp2⟩
    · exact (hiff a c).mpr (Or.inl (Nat.lt_trans h1 h2))
    · exact (hiff a c).mpr (Or.inl (h2 ▸ h1))
    · exact (hiff a c).mpr (Or.inl (h1 ▸ h2))
    · exact (hiff a c).mpr (Or.inr ⟨h1.trans h2, htr _ _ _ hp1 hp2⟩)

/-- The grouped rows of `BFS_SQL` before the final `ORDER BY` / `LIMIT`:
one `(nodes row, MIN(depth))` pair per distinct CTE node id, inner-joined
with `nodes` (ids without a `nodes` row are dropped; `node_id` is the
primary key, so the first matching row is the row). -/
def bfsCands (s : Snapshot α) (seed : String) (maxDepth : Nat) :
    List (NodeRow α × Nat) :=
  (bfsIds s.edges seed maxDepth).filterMap fun id =>
    match s.nodes.find? (fun n => n.node_id = id),
        bfsMinDepth s.edges seed maxDepth id with
    | some row, some d => some (row, d)
    | _, _ => none

/-- The full `BFS_SQL` query: the grouped rows ordered by depth ascending
then pagerank descending, truncated to `maxNodes`. -/
def bfsRows (s : Snapshot α) (seed : String) (maxDepth maxNodes : Nat) :
    List (NodeRow α × Nat) :=
  ((bfsCands s seed maxDepth).insertionSort bfsRowRel).take maxNodes

/-- Edge walks of the directed graph: `WalkFrom edges seed n d` holds when
some length-`d` walk along `source → target` edges leads from `seed` to
`n`.  This is the specification vocabulary the BFS claims are settled
against (the CTE itself is embedded separately as `bfsLevel`). -/
inductive WalkFrom {α : Type} (edges : List (EdgeRow α)) (seed : String) :
    String → Nat → Prop
  | zero : WalkFrom edges seed seed 0
  | step {b c : String} {d : Nat} : WalkFrom edges seed b d →
      (e : EdgeRow α) → e ∈ edges → e.source_id = b → e.target_id = c →
      WalkFrom edges seed c (d + 1)

/-! ### Context rendering (`_formatNodeContext`) -/

/-- Model of `Array.prototype.join(sep)` / `lines.join("\n")`. -/
def joinWith (sep : String) : List String → String
  | [] => ""
  | [x] => x
  | x :: rest => x ++ sep ++ joinWith sep rest

/-- Model of `s.slice(0, n)` on a string (character model of UTF-16 units). -/
def takeChars (n : Nat) (s : String) : String :=
  (s.toList.take n).asString

/-- The callee names rendered by `_formatNodeContext`: names of `CALLS`
targets of the node, inner-joined with `nodes`, first ten in edge order. -/
def calleeNames (s : Snapshot α) (nodeId : String) : List String :=
  (s.edges.filterMap fun e =>
    if e.source_id = nodeId ∧ e.edge_type = some "CALLS" then
      (s.nodes.find? (fun n => n.node_id = e.target_id)).map (fun n => n.name)
    else none).take 10

/-- The caller names rendered by `_formatNodeContext`: names of `CALLS`
sources pointing at the node, first ten in edge order. -/
def callerNames (s : Snapshot α) (nodeId : String) : List String :=
  (s.edges.filterMap fun e =>
    if e.target_id = nodeId ∧ e.edge_type = some "CALLS" then
      (s.nodes.find? (fun n => n.node_id = e.source_id)).map (fun n => n.name)
    else none).take 10

/-- Model of `_formatNodeContext` from `sqlite_reader.ts`: header line, optional
signature, first 400 characters of documentation, up to ten callees and
callers, and the first 1200 characters of the body in an R code fence. -/
def formatNodeContext (s : Snapshot α) (node : NodeRow α) : String :=
  let type := node.node_type.getD "node"
  let filePart :=
    match node.file with
    | some f => if f = "" then "" else " [" ++ f ++ "]"
    | none => ""
  let callees := calleeNames s node.node_id
  let callers := callerNames s node.node_id
  let lines :=
    ["## " ++ node.name ++ "  <" ++ type ++ ">" ++ filePart] ++
    (if jsTruthy node.signature then
      ["**Signature**: `" ++ node.signature.getD "" ++ "`"] else []) ++
    (if jsTruthy node.roxygen_text then
      ["**Documentation**:", takeChars 400 (node.roxygen_text.getD "")] else []) ++
    (if callees ≠ [] then ["**Calls**: " ++ joinWith ", " callees] else []) ++
    (if callers ≠ [] then ["**Called by**: " ++ joinWith ", " callers] else []) ++
    (if jsTruthy node.body_text then
      ["```r", takeChars 1200 (node.body_text.getD ""), "```"] else [])
  joinWith "\n" lines

/-! ### Relevance scoring and assembly (`queryContext`) -/

/-- The per-candidate blended score of `queryContext`: cosine similarity of
the query vector against the leading components of the node's embedding
(`emb.slice(0, qVecArr.length)`), 0 when either is missing, blended as
`0.4 * sem + 0.25 * pagerank + 0.25 * task_weight + 0.1 * depthPenalty`
with `pagerank ?? 0`, `task_weight ?? 0.5`, and
`depthPenalty = 1 / (1 + depth * 0.5)`. -/
def computeScore (M : JsMath α) (qVecArr : Option (List α)) (node : NodeRow α)
    (depth : Nat) : α :=
  let semScore : α :=
    match node.embedding, qVecArr with
    | some emb, some qv => cosineSimilarity M.sqrt qv (emb.take qv.length)
    | _, _ => 0
  let pagerank := node.pagerank.getD 0
  let tw := node.task_weight.getD 0.5
  let depthPenalty := 1 / (1 + (depth : α) * 0.5)
  0.4 * semScore + 0.25 * pagerank + 0.25 * tw + 0.1 * depthPenalty

/-- The query vector passed to the scorer: `null` when empty
(`qVec.size > 0 ? Array.from(qVec.values()) : null`). -/
def queryVecArr (M : JsMath α) (s : Snapshot α) (query : String) :
    Option (List α) :=
  let qVec := buildQueryVector M.log query s.vocab
  if 0 < qVec.length then some (qVec.map Prod.snd) else none

/-- The BFS candidates sorted by blended score descending
(`scored.sort((a, b) => b.score - a.score)`, a stable sort). -/
def scoredCandidates (M : JsMath α) (s : Snapshot α) (seedId query : String)
    (maxDepth maxNodes : Nat) : List (NodeRow α × Nat) :=
  let qVecArr := queryVecArr M s query
  (bfsRows s seedId maxDepth maxNodes).insertionSort fun a b =>
    computeScore M qVecArr b.1 b.2 ≤ computeScore M qVecArr a.1 a.2

/-- Each scored candidate with its rendered context block, in score order:
the `(node.node_id, chunk)` pairs the assembly loop walks. -/
def renderedCandidates (M : JsMath α) (s : Snapshot α) (seedId query : String)
    (maxDepth maxNodes : Nat) : List (String × String) :=
  (scoredCandidates M s seedId query maxDepth maxNodes).map fun x =>
    (x.1.node_id, formatNodeContext s x.1)

/-- The assembly loop of `queryContext`: walk `(id, chunk)` pairs, accept
while `usedTokens + chunkTokens ≤ budget`, and `break` (dropping the whole
rest of the list) at the first overshoot.  Returns the accepted pairs and
the final `usedTokens`. -/
def assembleGo (budget : α) : List (String × String) → Nat →
    List (String × String) × Nat
  | [], used => ([], used)
  | item :: rest, used =>
      if budget < ((used + estimateTokens item.2.length : Nat) : α) then
        ([], used)
      else
        (item :: (assembleGo budget rest (used + estimateTokens item.2.length)).1,
          (assembleGo budget rest (used + estimateTokens item.2.length)).2)

/-- The result type of `queryContext` (`ContextResult` in `src/types.ts`).
The interface declares a required field
`retrieval_mode : "tfidf_cosine" | "fts5_fallback" | "pagerank_only"`, but
neither `return` site of `queryContext` assigns it, so at runtime the
property is absent (`undefined`); that is modelled here as an
`Option String` that the constructor sites leave at `none`. -/
structure ContextResult where
  context_string : String
  node_ids : List String
  token_estimate : Nat
  seed_node : Option String
  retrieval_mode : Option String
  deriving Repr, DecidableEq

/-- Model of `queryContext` from `sqlite_reader.ts`: resolve a seed (empty-snapshot
early return), BFS, score, sort, assemble within budget, and wrap with the
header `# rrlmgraph context…`. -/
def queryContext (M : JsMath α) (s : Snapshot α) (query : String)
    (seedNodeName : Option String) (budgetTokens : α)
    (maxDepth maxNodes : Nat) : ContextResult :=
  match findSeedNode M s query seedNodeName with
  | none => ⟨"# No graph data available.\n", [], 0, none, none⟩
  | some seedId =>
      let rendered := renderedCandidates M s seedId query maxDepth maxNodes
      let r := assembleGo budgetTokens rendered 0
      let usedIds := r.1.map Prod.fst
      let chunks := r.1.map Prod.snd
      let usedTokens := r.2
      let header := "# rrlmgraph context\n# Query: " ++ query ++
        "\n# Nodes: " ++ toString usedIds.length ++ " | Tokens: ~" ++
        toString usedTokens ++ "\n\n"
      ⟨header ++ joinWith "\n---\n" chunks, usedIds, usedTokens,
        some seedId, none⟩

/-! ### Task traces (`addTaskTrace`) -/

/-- Value of `lastInsertRowid` of an insert into `task_traces`: one more than the
largest rowid in use. -/
def nextTraceId (traces : List (TaskTraceRow α)) : Nat :=
  (traces.map (fun t => t.trace_id)).foldr max 0 + 1

/-- Model of `addTaskTrace` from `sqlite_reader.ts`: reject polarity outside
`[-1, 1]` with a `RangeError` before touching the store, otherwise insert
one row (with the generated rowid and the supplied timestamp
`new Date().toISOString()`, passed in as `now`) and return the rowid.
Returns the post-state together with the thrown-or-returned outcome. -/
def addTaskTrace (s : Snapshot α) (query : String) (nodes : List String)
    (polarity : α) (sessionId : Option String) (now : String) :
    Snapshot α × Except String Nat :=
  if polarity < -1 ∨ 1 < polarity then
    (s, Except.error "RangeError: polarity must be in [-1, 1]")
  else
    let tid := nextTraceId s.traces
    ({ s with traces := s.traces ++
        [⟨tid, some query, nodes, polarity, sessionId, some now⟩] },
      Except.ok tid)

/-! ### File nodes (`getFileNodes`) -/

/-- SQLite `LIKE` matching (case-insensitive ASCII): `%` matches any
sequence, `_` any single character. -/
def sqlLike : List Char → List Char → Bool
  | [], [] => true
  | [], _ :: _ => false
  | '%' :: p, s =>
      sqlLike p s ||
        (match s with
         | [] => false
         | _ :: s' => sqlLike ('%' :: p) s')
  | '_' :: p, s =>
      (match s with
       | [] => false
       | _ :: s' => sqlLike p s')
  | c :: p, s =>
      (match s with
       | [] => false
       | d :: s' => c.toLower = d.toLower && sqlLike p s')
termination_by p s => p.length + s.length

/-- The `NodeInfo` result type (`src/types.ts`): a node row plus the
relationship lists `callers`, `callees`, `tests`. -/
structure NodeInfo (α : Type) where
  node_id : String
  name : String
  file : Option String
  node_type : Option String
  signature : Option String
  body_text : Option String
  roxygen_text : Option String
  complexity : Option α
  pagerank : Option α
  task_weight : Option α
  pkg_name : Option String
  pkg_version : Option String
  callers : List String
  callees : List String
  tests : List String
  deriving Repr, DecidableEq

/-- Model of `getFileNodes` from `sqlite_reader.ts`:
`SELECT * FROM nodes WHERE file = ? OR file LIKE ?` with the decoded path
and the pattern `%<decoded>`, mapped to `NodeInfo` rows whose `callers`,
`callees` and `tests` are hard-coded empty.  `decodeURIComponent` is passed
in as `decode` (it is a pure string transformation; every claim holds for
any choice). -/
def getFileNodes (decode : String → String) (s : Snapshot α)
    (filePath : String) : List (NodeInfo α) :=
  let decoded := decode filePath
  let rows := s.nodes.filter fun r =>
    match r.file with
    | some f => f = decoded || sqlLike ('%' :: decoded.toList) f.toList
    | none => false
  rows.map fun r =>
    ⟨r.node_id, r.name, r.file, r.node_type, r.signature, r.body_text,
      r.roxygen_text, r.complexity, r.pagerank, r.task_weight, r.pkg_name,
      r.pkg_version, [], [], []⟩

/-! ### Concrete snapshots and helpers used by witnesses and example
evaluations -/

/-- A concrete `JsMath` instance over `ℚ` for witnesses (the structural
claims hold for every choice of the ambient math functions). -/
def qMath : JsMath ℚ := ⟨fun _ => 0, fun _ => 0, fun _ _ => 0⟩

/-- A minimal node constructor for concrete witnesses. -/
def mkNode (id nm : String) : NodeRow ℚ :=
  { node_id := id, name := nm }

/-- A minimal edge constructor for concrete witnesses. -/
def mkEdge (i : Nat) (src tgt : String) : EdgeRow ℚ :=
  { edge_id := i, source_id := src, target_id := tgt }

/-- The 3-node cycle of the spec example: A→B, B→C, C→A. -/
def cycleSnap : Snapshot ℚ :=
  ⟨[mkNode "A" "A", mkNode "B" "B", mkNode "C" "C"],
   [mkEdge 1 "A" "B", mkEdge 2 "B" "C", mkEdge 3 "C" "A"], [], []⟩

/-- One-node snapshot whose display name differs from its id. -/
def alphaSnap : Snapshot ℚ := ⟨[mkNode "n1" "alpha"], [], [], []⟩

/-- A snapshot in which `CALLS` and `TESTS` edges touch the node stored
for file `R/f.R`. -/
def fileSnap : Snapshot ℚ :=
  ⟨[{ mkNode "n1" "alpha" with file := some "R/f.R" }, mkNode "n2" "beta",
    mkNode "t1" "test_alpha"],
   [{ mkEdge 1 "n2" "n1" with edge_type := some "CALLS" },
    { mkEdge 2 "t1" "n1" with edge_type := some "TESTS" }], [], []⟩

/-- The `NodeInfo` that `getFileNodes` produces for the node of `fileSnap`
stored in `R/f.R`. -/
def fileInfoW : NodeInfo ℚ :=
  ⟨"n1", "alpha", some "R/f.R", none, none, none, none, none, none, none,
    none, none, [], [], []⟩

/-- Lookup in the `tf` association list (`tf.get(t) ?? 0`). -/
def alGet (l : List (String × Nat)) (t : String) : Nat :=
  ((l.find? (fun p => p.1 = t)).map Prod.snd).getD 0

end Rrlmgraph

namespace Rrlmgraph

example : estimateTokens 16 = 5 := by decide

example : tokenize "Query context, QUERY!" = ["query", "context", "query"] := by decide

example : tfList ["query", "context", "query"] = [("query", 2), ("context", 1)] := by
  decide

end Rrlmgraph

namespace Rrlmgraph

example :
    bfsRows cycleSnap "A" 5 80 =
      [(mkNode "A" "A", 0), (mkNode "B" "B", 1), (mkNode "C" "C", 2)] := by
  decide

example :
    (queryContext qMath alphaSnap "" (some "alpha") 1 3 80).seed_node =
      some "n1" := by decide

example :
    (queryContext qMath alphaSnap "" (some "alpha") 1 3 80).node_ids = [] := by
  decide

example :
    (queryContext qMath alphaSnap "" (some "alpha") 6000 3 80).node_ids =
      ["n1"] := by decide

end Rrlmgraph

namespace Rrlmgraph

variable {α : Type} [LinearOrderedField α]

/-! ### Lemmas about the assembly loop -/

/-- The assembly loop never lets the accumulated token count pass the
budget: each acceptance is guarded by `usedTokens + chunkTokens ≤ budget`. -/
theorem assembleGo_snd_le (B : α) :
    ∀ (items : List (String × String)) (used : Nat), (used : α) ≤ B →
      (((assembleGo B items used).2 : Nat) : α) ≤ B := by
  intro items
  induction items with
  | nil => intro used h; simpa [assembleGo] using h
  | cons item rest ih =>
      intro used h
      by_cases hc : B < (((used + estimateTokens item.2.length) : Nat) : α)
      · simp only [assembleGo]
        rw [if_pos hc]
        exact h
      · simp only [assembleGo]
        rw [if_neg hc]
        exact ih (used + estimateTokens item.2.length) (not_lt.mp hc)

/-- The accepted items of the assembly loop are an initial segment of the
walked list: the loop `break`s at the first rejection. -/
theorem assembleGo_accepts_front (B : α) :
    ∀ (items : List (String × String)) (used : Nat),
      (assembleGo B items used).1 <+: items := by
  intro items
  induction items with
  | nil => intro used; exact ⟨[], rfl⟩
  | cons item rest ih =>
      intro used
      by_cases hc : B < (((used + estimateTokens item.2.length) : Nat) : α)
      · simp only [assembleGo]
        rw [if_pos hc]
        exact ⟨item :: rest, rfl⟩
      · obtain ⟨t, ht⟩ := ih (used + estimateTokens item.2.length)
        refine ⟨t, ?_⟩
        simp only [assembleGo]
        rw [if_neg hc]
        rw [List.cons_append, ht]

/-- When the total cost of all items still fits the budget, the loop
accepts everything. -/
theorem assembleGo_accepts_all (B : α) :
    ∀ (items : List (String × String)) (used : Nat),
      (((used + (items.map (fun it => estimateTokens it.2.length)).sum : Nat) : α) ≤ B) →
      (assembleGo B items used).1 = items := by
  intro items
  induction items with
  | nil => intro used _; rfl
  | cons item rest ih =>
      intro used h
      have hstep : (((used + estimateTokens item.2.length) : Nat) : α) ≤ B := by
        refine le_trans ?_ h
        have : used + estimateTokens item.2.length ≤
            used + ((item :: rest).map (fun it => estimateTokens it.2.length)).sum := by
          simp
        exact_mod_cast this
      have hc : ¬ B < (((used + estimateTokens item.2.length) : Nat) : α) :=
        not_lt.mpr hstep
      have harr : used + estimateTokens item.2.length +
          (rest.map (fun it => estimateTokens it.2.length)).sum =
          used + ((item :: rest).map (fun it => estimateTokens it.2.length)).sum := by
        simp [Nat.add_assoc]
      have hrest := ih (used + estimateTokens item.2.length) (by rw [harr]; exact h)
      simp only [assembleGo]
      rw [if_neg hc]
      simp only [hrest]

/-! ### C1, C2, C9 about `queryContext` -/

/-- C1: for every query string, optional seed name and positive token
budget `B`, the `ContextResult` returned by `queryContext` has
`token_estimate ≤ B` — the sum of the estimated token costs of accepted
node blocks never exceeds the requested budget. -/
theorem claim1_budget_never_exceeded (M : JsMath α) (s : Snapshot α)
    (query : String) (seedNodeName : Option String) (B : α)
    (maxDepth maxNodes : Nat) (hB : 0 < B) :
    ((queryContext M s query seedNodeName B maxDepth maxNodes).token_estimate : α)
      ≤ B := by
  unfold queryContext
  cases h : findSeedNode M s query seedNodeName with
  | none => simpa using hB.le
  | some seedId =>
      simpa using assembleGo_snd_le B
        (renderedCandidates M s seedId query maxDepth maxNodes) 0
        (by simpa using hB.le)

/-- Closed witness for C1 at a concrete snapshot and budget 1. -/
theorem claim1_witness :
    (0 : ℚ) < 1 ∧
      ((queryContext qMath alphaSnap "" (some "alpha") 1 3 80).token_estimate : ℚ)
        ≤ 1 :=
  ⟨by norm_num,
    claim1_budget_never_exceeded qMath alphaSnap "" (some "alpha") 1 3 80
      (by norm_num)⟩

/-- C2 (counterexample evidence): both `return` sites of `queryContext`
omit the `retrieval_mode` property required by the `ContextResult`
interface, so every returned result carries no retrieval-mode tag at all —
in particular never one of `tfidf_cosine` / `fts5_fallback` /
`pagerank_only`. -/
theorem claim2_retrieval_mode_always_missing (M : JsMath α) (s : Snapshot α)
    (query : String) (seedNodeName : Option String) (B : α)
    (maxDepth maxNodes : Nat) :
    (queryContext M s query seedNodeName B maxDepth maxNodes).retrieval_mode
      = none := by
  unfold queryContext
  cases findSeedNode M s query seedNodeName <;> rfl

/-- C9: the accepted nodes form an initial segment of the score-sorted
candidate list — the assembler walks candidates in descending blended
score and stops consuming the list entirely at the first rejection, so no
candidate positioned after the first rejected one is ever accepted. -/
theorem claim9_accepted_nodes_front_of_sorted (M : JsMath α) (s : Snapshot α)
    (query : String) (seedNodeName : Option String) (B : α)
    (maxDepth maxNodes : Nat) (seedId : String)
    (hseed : findSeedNode M s query seedNodeName = some seedId) :
    (queryContext M s query seedNodeName B maxDepth maxNodes).node_ids <+:
      (scoredCandidates M s seedId query maxDepth maxNodes).map
        (fun x => x.1.node_id) := by
  unfold queryContext
  rw [hseed]
  obtain ⟨t, ht⟩ :=
    assembleGo_accepts_front B (renderedCandidates M s seedId query maxDepth maxNodes) 0
  refine ⟨t.map Prod.fst, ?_⟩
  rw [← List.map_append, ht]
  simp only [renderedCandidates, List.map_map]
  rfl

/-- Closed witness for C9 at a concrete snapshot. -/
theorem claim9_witness :
    findSeedNode qMath alphaSnap "" (some "alpha") = some "n1" ∧
      (queryContext qMath alphaSnap "" (some "alpha") 1 3 80).node_ids <+:
        (scoredCandidates qMath alphaSnap "n1" "" 3 80).map
          (fun x => x.1.node_id) :=
  ⟨by decide,
    claim9_accepted_nodes_front_of_sorted qMath alphaSnap "" (some "alpha") 1 3 80
      "n1" (by decide)⟩

/-! ### C10 about `getFileNodes` -/

omit [LinearOrderedField α] in
/-- C10: every `NodeInfo` returned by `getFileNodes` has empty `callers`,
`callees` and `tests` lists, even when `CALLS` or `TESTS` edges touching
the node exist in the store. -/
theorem claim10_file_nodes_have_no_relations (decode : String → String)
    (s : Snapshot α) (filePath : String) (info : NodeInfo α)
    (h : info ∈ getFileNodes decode s filePath) :
    info.callers = [] ∧ info.callees = [] ∧ info.tests = [] := by
  simp only [getFileNodes, List.mem_map] at h
  obtain ⟨r, -, rfl⟩ := h
  exact ⟨rfl, rfl, rfl⟩

/-- Closed witness for C10: the relationship lists stay empty although
`fileSnap` contains a `CALLS` edge and a `TESTS` edge into `n1`. -/
theorem claim10_witness :
    fileInfoW ∈ getFileNodes (fun p => p) fileSnap "R/f.R" ∧
      (fileInfoW.callers = [] ∧ fileInfoW.callees = [] ∧ fileInfoW.tests = []) :=
  ⟨by decide,
    claim10_file_nodes_have_no_relations (fun p => p) fileSnap "R/f.R" fileInfoW
      (by decide)⟩

/-! ### C8 about `addTaskTrace` -/

/-- C8: `addTaskTrace` fails (with a `RangeError`) exactly when the
polarity lies outside `[-1, 1]`; on failure the store is unchanged and
nothing is clamped; otherwise exactly one trace row is appended, carrying
the generated rowid, the unclamped polarity and the supplied timestamp,
and that rowid is returned. -/
theorem claim8_polarity_validated (s : Snapshot α) (q : String)
    (nodes : List String) (p : α) (sid : Option String) (now : String) :
    ((p < -1 ∨ 1 < p) →
      (addTaskTrace s q nodes p sid now).1 = s ∧
      ∃ e, (addTaskTrace s q nodes p sid now).2 = Except.error e) ∧
    (-1 ≤ p → p ≤ 1 →
      (addTaskTrace s q nodes p sid now).2 = Except.ok (nextTraceId s.traces) ∧
      (addTaskTrace s q nodes p sid now).1.traces =
        s.traces ++ [⟨nextTraceId s.traces, some q, nodes, p, sid, some now⟩] ∧
      (addTaskTrace s q nodes p sid now).1.nodes = s.nodes ∧
      (addTaskTrace s q nodes p sid now).1.edges = s.edges) := by
  constructor
  · intro h
    simp [addTaskTrace, h]
  · intro h1 h2
    have h : ¬ (p < -1 ∨ 1 < p) := by
      push_neg
      exact ⟨h1, h2⟩
    simp [addTaskTrace, h]

/-! ### Lemmas about the seed resolver, leading to C5 -/

theorem seedByName_mem {nodes : List (NodeRow α)} {sn : Option String}
    {id : String} (h : seedByName nodes sn = some id) :
    ∃ n ∈ nodes, n.node_id = id := by
  cases sn with
  | none => simp [seedByName] at h
  | some nm =>
      simp only [seedByName] at h
      by_cases hnm : nm = ""
      · rw [if_pos hnm] at h; exact absurd h (by simp)
      · rw [if_neg hnm] at h
        cases hfind : nodes.find? (fun n => n.name = nm) with
        | none => rw [hfind] at h; exact absurd h (by simp)
        | some n =>
            rw [hfind] at h
            exact ⟨n, List.mem_of_find?_eq_some hfind, by simpa using h⟩

theorem seedByName_nil {sn : Option String} :
    seedByName (α := α) [] sn = none := by
  cases sn with
  | none => rfl
  | some nm => simp [seedByName]

/-- A fold whose step always returns one of its two arguments stays inside
the initial value and the folded list. -/
theorem foldl_pick_mem {β : Type} (f : β → β → β)
    (hf : ∀ a b, f a b = a ∨ f a b = b) :
    ∀ (rest : List β) (n0 : β), rest.foldl f n0 ∈ n0 :: rest := by
  intro rest
  induction rest with
  | nil => intro n0; simp
  | cons m rest' ih =>
      intro n0
      simp only [List.foldl_cons]
      rcases List.mem_cons.mp (ih (f n0 m)) with h1 | h1
      · rw [h1]
        rcases hf n0 m with h2 | h2 <;> rw [h2]
        · exact List.mem_cons_self _ _
        · exact List.mem_cons_of_mem _ (List.mem_cons_self _ _)
      · exact List.mem_cons_of_mem _ (List.mem_cons_of_mem _ h1)

theorem minByRank_mem {rank : NodeRow α → α} {l : List (NodeRow α)}
    {n : NodeRow α} (h : minByRank rank l = some n) : n ∈ l := by
  match l with
  | [] => exact absurd h (by simp [minByRank])
  | n0 :: rest =>
      have hmem := foldl_pick_mem
        (fun best m => if rank best ≤ rank m then best else m)
        (fun a b => by by_cases hc : rank a ≤ rank b <;> simp [hc]) rest n0
      simp only [minByRank, Option.some.injEq] at h
      rw [← h]
      exact hmem

theorem ftsSeed_mem {M : JsMath α} {nodes : List (NodeRow α)} {query : String}
    {id : String} (h : ftsSeed M nodes query = some id) :
    ∃ n ∈ nodes, n.node_id = id := by
  unfold ftsSeed at h
  by_cases hts : (tokenize query).take 10 = []
  · rw [if_pos hts] at h; exact absurd h (by simp)
  · rw [if_neg hts] at h
    cases hmin : minByRank (M.ftsRank ((tokenize query).take 10))
        (nodes.filter (ftsMatches ((tokenize query).take 10))) with
    | none => rw [hmin] at h; exact absurd h (by simp)
    | some n =>
        rw [hmin] at h
        have hn := minByRank_mem hmin
        exact ⟨n, (List.mem_filter.mp hn).1, by simpa using h⟩

theorem ftsSeed_nil {M : JsMath α} {query : String} :
    ftsSeed M ([] : List (NodeRow α)) query = none := by
  unfold ftsSeed
  by_cases hts : (tokenize query).take 10 = []
  · rw [if_pos hts]
  · rw [if_neg hts]
    simp [minByRank]

theorem topByPagerank_perm (nodes : List (NodeRow α)) :
    (topByPagerank nodes).Perm nodes :=
  List.perm_insertionSort _ _

theorem overlapSeed_foldl_inv (nodes : List (NodeRow α)) (query : String) :
    ∀ (rows : List (NodeRow α)) (acc : α × Option String),
      (∀ r ∈ rows, r ∈ nodes) →
      (acc.2 = none ∨ ∃ n ∈ nodes, acc.2 = some n.node_id) →
      ((rows.foldl (overlapStep query) acc).2 = none ∨
        ∃ n ∈ nodes, (rows.foldl (overlapStep query) acc).2 = some n.node_id) := by
  intro rows
  induction rows with
  | nil => intro acc _ hacc; exact hacc
  | cons row rest ih =>
      intro acc hmem hacc
      simp only [List.foldl_cons]
      refine ih _ (fun r hr => hmem r (List.mem_cons_of_mem _ hr)) ?_
      simp only [overlapStep]
      split
      · exact Or.inr ⟨row, hmem row (List.mem_cons_self _ _), rfl⟩
      · exact hacc

theorem overlapSeed_mem {nodes : List (NodeRow α)} {query : String}
    {id : String} (h : overlapSeed nodes query = some id) :
    ∃ n ∈ nodes, n.node_id = id := by
  unfold overlapSeed at h
  have hrows : ∀ r ∈ (topByPagerank nodes).take 200, r ∈ nodes := fun r hr =>
    (topByPagerank_perm nodes).mem_iff.mp (List.mem_of_mem_take hr)
  have hinv := overlapSeed_foldl_inv nodes query ((topByPagerank nodes).take 200)
    ((0 : α), (none : Option String)) hrows (Or.inl rfl)
  rcases hinv with h0 | ⟨n, hn, heq⟩
  · rw [h] at h0; exact absurd h0 (by simp)
  · rw [h] at heq
    exact ⟨n, hn, by simpa using heq.symm⟩

theorem overlapSeed_nil {query : String} :
    overlapSeed (α := α) [] query = none := by
  rfl

theorem topSeed_mem {nodes : List (NodeRow α)} {id : String}
    (h : topSeed nodes = some id) : ∃ n ∈ nodes, n.node_id = id := by
  unfold topSeed at h
  cases hh : (topByPagerank nodes).head? with
  | none => rw [hh] at h; exact absurd h (by simp)
  | some n =>
      rw [hh] at h
      have hn : n ∈ topByPagerank nodes :=
        List.mem_of_mem_head? (by rw [hh]; rfl)
      exact ⟨n, (topByPagerank_perm nodes).mem_iff.mp hn, by simpa using h⟩

theorem topSeed_of_ne_nil {nodes : List (NodeRow α)} (h : nodes ≠ []) :
    topSeed nodes ≠ none := by
  unfold topSeed
  have hne : topByPagerank nodes ≠ [] := by
    intro hc
    have hperm := topByPagerank_perm nodes
    rw [hc] at hperm
    exact h hperm.symm.eq_nil
  cases hh : (topByPagerank nodes).head? with
  | none => exact absurd (List.head?_eq_none_iff.mp hh) hne
  | some n => simp [hh]

/-- C5: seed resolution is total — it returns no seed exactly when the
snapshot's `nodes` table is empty, and whenever it returns a seed, that
seed is the identifier of an existing node (the fallback chain ends with
the single highest-centrality node). -/
theorem claim5_seed_resolution_total (M : JsMath α) (s : Snapshot α)
    (query : String) (seedNodeName : Option String) :
    (findSeedNode M s query seedNodeName = none ↔ s.nodes = []) ∧
    (∀ id, findSeedNode M s query seedNodeName = some id →
      ∃ n ∈ s.nodes, n.node_id = id) := by
  constructor
  · constructor
    · intro h
      by_contra hne
      unfold findSeedNode at h
      cases h1 : seedByName s.nodes seedNodeName with
      | some id => rw [h1] at h; exact absurd h (by simp)
      | none =>
        rw [h1] at h
        cases h2 : ftsSeed M s.nodes query with
        | some id => rw [h2] at h; exact absurd h (by simp)
        | none =>
          rw [h2] at h
          cases h3 : overlapSeed s.nodes query with
          | some id => rw [h3] at h; exact absurd h (by simp)
          | none =>
            rw [h3] at h
            exact topSeed_of_ne_nil hne h
    · intro h
      unfold findSeedNode
      rw [h, seedByName_nil, ftsSeed_nil, overlapSeed_nil]
      rfl
  · intro id h
    unfold findSeedNode at h
    cases h1 : seedByName s.nodes seedNodeName with
    | some id' =>
        rw [h1] at h
        exact seedByName_mem (h1.trans (by simpa using h))
    | none =>
      rw [h1] at h
      cases h2 : ftsSeed M s.nodes query with
      | some id' =>
          rw [h2] at h
          exact ftsSeed_mem (h2.trans (by simpa using h))
      | none =>
        rw [h2] at h
        cases h3 : overlapSeed s.nodes query with
        | some id' =>
            rw [h3] at h
            exact overlapSeed_mem (h3.trans (by simpa using h))
        | none =>
            rw [h3] at h
            exact topSeed_mem h

/-- Closed witness for C5 on a non-empty snapshot. -/
theorem claim5_witness :
    (findSeedNode qMath alphaSnap "" (some "alpha") = none ↔
      alphaSnap.nodes = []) ∧
    ∃ n ∈ alphaSnap.nodes, n.node_id = "n1" :=
  ⟨(claim5_seed_resolution_total qMath alphaSnap "" (some "alpha")).1,
    (claim5_seed_resolution_total qMath alphaSnap "" (some "alpha")).2 "n1"
      (by decide)⟩

/-- Closed witness for C8 at polarity `1/2`. -/
theorem claim8_witness :
    (-1 : ℚ) ≤ 1/2 ∧ (1/2 : ℚ) ≤ 1 ∧
      (addTaskTrace alphaSnap "t" ["n1"] (1/2 : ℚ) none "2026-01-01").2 =
        Except.ok (nextTraceId alphaSnap.traces) :=
  ⟨by norm_num, by norm_num,
    ((claim8_polarity_validated alphaSnap "t" ["n1"] (1/2 : ℚ) none
        "2026-01-01").2 (by norm_num) (by norm_num)).1⟩

end Rrlmgraph

namespace Rrlmgraph

variable {α : Type} [LinearOrderedField α]

/-! ### Lemmas about the BFS traversal, leading to C4 and C3 -/

omit [LinearOrderedField α] in
theorem mem_successors {edges : List (EdgeRow α)} {n t : String} :
    t ∈ successors edges n ↔ ∃ e ∈ edges, e.source_id = n ∧ e.target_id = t := by
  simp only [successors, List.mem_filterMap]
  constructor
  · rintro ⟨e, he, hif⟩
    by_cases hs : e.source_id = n
    · rw [if_pos hs] at hif
      exact ⟨e, he, hs, by simpa using hif⟩
    · rw [if_neg hs] at hif
      exact absurd hif (by simp)
  · rintro ⟨e, he, hs, ht⟩
    exact ⟨e, he, by rw [if_pos hs, ht]⟩

omit [LinearOrderedField α] in
/-- Characterisation of the CTE levels: for depths within the bound, a node
sits in level `d` exactly when a length-`d` edge walk reaches it from the
seed.  In particular the `UNION`-deduplicated recursion realises exactly
the bounded walk relation (cycle safety: no level re-expands forever). -/
theorem mem_bfsLevel_iff_walk {edges : List (EdgeRow α)} {seed : String}
    {maxDepth : Nat} :
    ∀ {d : Nat}, d ≤ maxDepth → ∀ {n : String},
      (n ∈ bfsLevel edges seed maxDepth d ↔ WalkFrom edges seed n d) := by
  intro d
  induction d with
  | zero =>
      intro _ n
      simp only [bfsLevel, List.mem_singleton]
      constructor
      · rintro rfl; exact WalkFrom.zero
      · intro h
        cases h
        rfl
  | succ d ih =>
      intro hle n
      have hd : d < maxDepth := Nat.lt_of_succ_le hle
      simp only [bfsLevel, if_pos hd, List.mem_flatten, List.mem_map]
      constructor
      · rintro ⟨l, ⟨m, hm, rfl⟩, hn⟩
        obtain ⟨e, he, hs, ht⟩ := mem_successors.mp hn
        exact WalkFrom.step ((ih (Nat.le_of_lt hd)).mp hm) e he hs ht
      · intro h
        cases h with
        | step hb e he hs ht =>
            exact ⟨successors edges e.source_id,
              ⟨e.source_id, (ih (Nat.le_of_lt hd)).mpr (hs ▸ hb), rfl⟩,
              mem_successors.mpr ⟨e, he, rfl, ht⟩⟩

/-- On `List.range`, `find?` returns the least satisfying index. -/
theorem find?_range_least {p : Nat → Bool} {n d : Nat}
    (h : (List.range n).find? p = some d) :
    p d = true ∧ ∀ e, e < d → p e = false := by
  induction n with
  | zero => exact absurd h (by simp)
  | succ n ih =>
      rw [List.range_succ, List.find?_append] at h
      cases hfind : (List.range n).find? p with
      | some d' =>
          rw [hfind] at h
          have hdd : d' = d := by simpa using h
          subst hdd
          exact ih hfind
      | none =>
          rw [hfind, Option.none_or] at h
          by_cases hp : p n
          · have hd : n = d := by
              rw [List.find?_cons_of_pos _ hp] at h
              simpa using h
            subst hd
            refine ⟨hp, fun e he => ?_⟩
            simpa using List.find?_eq_none.mp hfind e (List.mem_range.mpr he)
          · rw [List.find?_cons_of_neg _ hp] at h
            exact absurd h (by simp)

omit [LinearOrderedField α] in
/-- Soundness of `MIN(bfs.depth)`: when it yields `d`, a length-`d` walk
reaches the node and no shorter walk does — `d` is the graph distance. -/
theorem bfsMinDepth_spec {edges : List (EdgeRow α)} {seed : String}
    {maxDepth : Nat} {n : String} {d : Nat}
    (h : bfsMinDepth edges seed maxDepth n = some d) :
    d ≤ maxDepth ∧ WalkFrom edges seed n d ∧
      ∀ e, WalkFrom edges seed n e → d ≤ e := by
  unfold bfsMinDepth at h
  have hdmem : d < maxDepth + 1 :=
    List.mem_range.mp (List.mem_of_find?_eq_some h)
  have hdle : d ≤ maxDepth := Nat.lt_succ_iff.mp hdmem
  obtain ⟨hp, hmin⟩ := find?_range_least h
  have hwalk : WalkFrom edges seed n d :=
    (mem_bfsLevel_iff_walk hdle).mp (of_decide_eq_true hp)
  refine ⟨hdle, hwalk, fun e he => ?_⟩
  by_contra hlt
  push_neg at hlt
  have hele : e ≤ maxDepth := Nat.le_trans (Nat.le_of_lt hlt) hdle
  have hmem : n ∈ bfsLevel edges seed maxDepth e :=
    (mem_bfsLevel_iff_walk hele).mpr he
  have := hmin e hlt
  rw [decide_eq_false_iff_not] at this
  exact this hmem

/-- Mapping a key that inverts the partial function keeps a nodup list
nodup through `filterMap`. -/
theorem nodup_key_filterMap {β γ : Type} {l : List β} {f : β → Option γ}
    {key : γ → β} (hl : l.Nodup) (hkey : ∀ b c, f b = some c → key c = b) :
    ((l.filterMap f).map key).Nodup := by
  induction l with
  | nil => simp
  | cons b rest ih =>
      have htail := ih (List.Nodup.of_cons hl)
      cases hf : f b with
      | none => simpa [List.filterMap_cons, hf] using htail
      | some c =>
          simp only [List.filterMap_cons, hf, List.map_cons, List.nodup_cons]
          refine ⟨?_, htail⟩
          intro hmem
          obtain ⟨c', hc', hkc⟩ := List.mem_map.mp hmem
          obtain ⟨b', hb', hfb'⟩ := List.mem_filterMap.mp hc'
          have : b' = b := by
            rw [← hkey b' c' hfb', hkc, hkey b c hf]
          rw [this] at hb'
          exact (List.nodup_cons.mp hl).1 hb'

omit [LinearOrderedField α] in
theorem mem_bfsCands_elim {s : Snapshot α} {seed : String} {maxDepth : Nat}
    {row : NodeRow α} {d : Nat} (h : (row, d) ∈ bfsCands s seed maxDepth) :
    s.nodes.find? (fun n => n.node_id = row.node_id) = some row ∧
      bfsMinDepth s.edges seed maxDepth row.node_id = some d := by
  obtain ⟨id, hid, hmatch⟩ := List.mem_filterMap.mp h
  cases hfind : s.nodes.find? (fun n => n.node_id = id) with
  | none => rw [hfind] at hmatch; exact absurd hmatch (by simp)
  | some row' =>
      cases hmin : bfsMinDepth s.edges seed maxDepth id with
      | none => rw [hfind, hmin] at hmatch; exact absurd hmatch (by simp)
      | some d' =>
          rw [hfind, hmin] at hmatch
          simp only [Option.some.injEq, Prod.mk.injEq] at hmatch
          obtain ⟨hrow, hd⟩ := hmatch
          have hkey : row'.node_id = id := by
            simpa using List.find?_some hfind
          subst hrow hd
          rw [hkey]
          exact ⟨hfind, hmin⟩

theorem pgDescLE_total (x y : Option α) :
    pgDescLE x y = true ∨ pgDescLE y x = true := by
  cases x <;> cases y <;> simp [pgDescLE, le_total]

theorem pgDescLE_trans {x y z : Option α} (h1 : pgDescLE x y = true)
    (h2 : pgDescLE y z = true) : pgDescLE x z = true := by
  cases x <;> cases y <;> cases z <;>
    simp_all [pgDescLE]
  exact le_trans h2 h1

theorem bfsRowRel_iff {a b : NodeRow α × Nat} :
    bfsRowRel a b ↔
      a.2 < b.2 ∨ (a.2 = b.2 ∧ pgDescLE a.1.pagerank b.1.pagerank = true) := by
  simp [bfsRowRel, bfsRowLE]

theorem mem_bfsRows_mem_cands {s : Snapshot α} {seed : String}
    {maxDepth maxNodes : Nat} {x : NodeRow α × Nat}
    (h : x ∈ bfsRows s seed maxDepth maxNodes) :
    x ∈ bfsCands s seed maxDepth :=
  (List.perm_insertionSort bfsRowRel _).mem_iff.mp (List.mem_of_mem_take h)

theorem bfsRows_keys_nodup (s : Snapshot α) (seed : String)
    (maxDepth maxNodes : Nat) :
    ((bfsRows s seed maxDepth maxNodes).map (fun x => x.1.node_id)).Nodup := by
  have hcands : ((bfsCands s seed maxDepth).map (fun x => x.1.node_id)).Nodup := by
    refine nodup_key_filterMap (List.nodup_dedup _) ?_
    intro id x hx
    cases hfind : s.nodes.find? (fun n => n.node_id = id) with
    | none => rw [hfind] at hx; exact absurd hx (by simp)
    | some row =>
        cases hmin : bfsMinDepth s.edges seed maxDepth id with
        | none => rw [hfind, hmin] at hx; exact absurd hx (by simp)
        | some d =>
            rw [hfind, hmin] at hx
            simp only [Option.some.injEq] at hx
            rw [← hx]
            simpa using List.find?_some hfind
  have hsort : (((bfsCands s seed maxDepth).insertionSort bfsRowRel).map
      (fun x => x.1.node_id)).Nodup :=
    (((List.perm_insertionSort bfsRowRel (bfsCands s seed maxDepth))).map
      (fun x => x.1.node_id)).nodup_iff.mpr hcands
  have hsub : ((bfsRows s seed maxDepth maxNodes).map (fun x => x.1.node_id)).Sublist
      ((((bfsCands s seed maxDepth).insertionSort bfsRowRel)).map
        (fun x => x.1.node_id)) :=
    (List.take_sublist _ _).map _
  exact hsub.nodup hsort

theorem bfsRows_sorted (s : Snapshot α) (seed : String)
    (maxDepth maxNodes : Nat) :
    List.Pairwise bfsRowRel (bfsRows s seed maxDepth maxNodes) :=
  (List.sorted_insertionSort bfsRowRel (bfsCands s seed maxDepth)).sublist
    (List.take_sublist _ _)

/-- C4: the bounded BFS yields each node at most once (distinct ids),
annotated with the exact minimum walk depth from the seed along directed
`source → target` edges (bounded by `maxDepth`), ordered by depth ascending
then pagerank descending, and truncated to `maxNodes`; and on the 3-node
cycle A→B, B→C, C→A started at A with `maxDepth = 5` it terminates with
exactly A at depth 0, B at depth 1, C at depth 2. -/
theorem claim4_bfs_cycle_safe_min_depth (s : Snapshot α) (seed : String)
    (maxDepth maxNodes : Nat) :
    ((bfsRows s seed maxDepth maxNodes).map (fun x => x.1.node_id)).Nodup ∧
    (bfsRows s seed maxDepth maxNodes).length ≤ maxNodes ∧
    List.Pairwise bfsRowRel (bfsRows s seed maxDepth maxNodes) ∧
    (∀ row d, (row, d) ∈ bfsRows s seed maxDepth maxNodes →
      d ≤ maxDepth ∧ WalkFrom s.edges seed row.node_id d ∧
        ∀ e, WalkFrom s.edges seed row.node_id e → d ≤ e) ∧
    bfsRows cycleSnap "A" 5 80 =
      [(mkNode "A" "A", 0), (mkNode "B" "B", 1), (mkNode "C" "C", 2)] := by
  refine ⟨bfsRows_keys_nodup s seed maxDepth maxNodes,
    List.length_take_le _ _,
    bfsRows_sorted s seed maxDepth maxNodes, ?_, by decide⟩
  intro row d h
  exact (bfsMinDepth_spec (mem_bfsCands_elim (mem_bfsRows_mem_cands h)).2).imp
    id (fun x => x)

/-- Closed witness for C4: the cycle instance, with the walk facts for the
row of node B extracted from the theorem. -/
theorem claim4_witness :
    (mkNode "B" "B", 1) ∈ bfsRows cycleSnap "A" 5 80 ∧
      WalkFrom cycleSnap.edges "A" "B" 1 ∧
      ∀ e, WalkFrom cycleSnap.edges "A" "B" e → 1 ≤ e :=
  ⟨by decide,
    (((claim4_bfs_cycle_safe_min_depth cycleSnap "A" 5 80).2.2.2.1
      (mkNode "B" "B") 1 (by decide)).2.imp id fun x => x)⟩

end Rrlmgraph

namespace Rrlmgraph

variable {α : Type} [LinearOrderedField α]

/-! ### The seed row heads the BFS result — leading to C3 -/

omit [LinearOrderedField α] in
theorem bfsMinDepth_seed (edges : List (EdgeRow α)) (seed : String)
    (maxDepth : Nat) : bfsMinDepth edges seed maxDepth seed = some 0 := by
  unfold bfsMinDepth
  rw [List.range_succ_eq_map]
  rw [List.find?_cons_of_pos]
  simp [bfsLevel]

omit [LinearOrderedField α] in
theorem bfsMinDepth_zero_id {edges : List (EdgeRow α)} {seed n : String}
    {maxDepth : Nat} (h : bfsMinDepth edges seed maxDepth n = some 0) :
    n = seed := by
  have hw := (bfsMinDepth_spec h).2.1
  cases hw
  rfl

omit [LinearOrderedField α] in
theorem seed_mem_bfsCands {s : Snapshot α} {seed : String} {maxDepth : Nat}
    {row : NodeRow α}
    (hfind : s.nodes.find? (fun n => n.node_id = seed) = some row) :
    (row, 0) ∈ bfsCands s seed maxDepth := by
  apply List.mem_filterMap.mpr
  refine ⟨seed, ?_, ?_⟩
  · unfold bfsIds
    rw [List.mem_dedup]
    apply List.mem_flatten.mpr
    refine ⟨bfsLevel s.edges seed maxDepth 0, ?_, by simp [bfsLevel]⟩
    exact List.mem_map.mpr ⟨0, by simp, rfl⟩
  · rw [hfind, bfsMinDepth_seed]

theorem seed_mem_bfsRows {s : Snapshot α} {seed : String}
    {maxDepth maxNodes : Nat} {row : NodeRow α}
    (hfind : s.nodes.find? (fun n => n.node_id = seed) = some row)
    (hmax : 1 ≤ maxNodes) :
    (row, 0) ∈ bfsRows s seed maxDepth maxNodes := by
  have hkey : row.node_id = seed := by simpa using List.find?_some hfind
  have hmemsort : (row, 0) ∈ (bfsCands s seed maxDepth).insertionSort bfsRowRel :=
    (List.perm_insertionSort bfsRowRel _).mem_iff.mpr (seed_mem_bfsCands hfind)
  cases hsort : (bfsCands s seed maxDepth).insertionSort bfsRowRel with
  | nil => rw [hsort] at hmemsort; exact absurd hmemsort (by simp)
  | cons x rest =>
      rw [hsort] at hmemsort
      have hx : x = (row, 0) := by
        rcases List.mem_cons.mp hmemsort with hh | hh
        · exact hh.symm
        · -- the head is related to the depth-0 seed entry, so it has depth 0
          have hpair := List.sorted_insertionSort bfsRowRel (bfsCands s seed maxDepth)
          rw [hsort] at hpair
          have hrel : bfsRowRel x (row, 0) :=
            (List.pairwise_cons.mp hpair).1 _ hh
          have hx2 : x.2 = 0 := by
            rcases bfsRowRel_iff.mp hrel with hlt | ⟨heq, -⟩
            · exact absurd hlt (by simp)
            · exact heq
          have hxmem : x ∈ bfsCands s seed maxDepth := by
            have hperm := List.perm_insertionSort bfsRowRel (bfsCands s seed maxDepth)
            rw [hsort] at hperm
            exact hperm.mem_iff.mp (List.mem_cons_self _ _)
          have hxpair : (x.1, x.2) ∈ bfsCands s seed maxDepth := by
            simpa using hxmem
          rw [hx2] at hxpair
          obtain ⟨hxfind, hxmin⟩ := mem_bfsCands_elim hxpair
          have hxid : x.1.node_id = seed := bfsMinDepth_zero_id hxmin
          rw [hxid, hfind] at hxfind
          have hx1 : x.1 = row := by
            have := hxfind
            simp only [Option.some.injEq] at this
            exact this.symm
          calc x = (x.1, x.2) := rfl
            _ = (row, 0) := by rw [hx1, hx2]
      unfold bfsRows
      rw [hsort, hx]
      rcases Nat.exists_eq_add_of_le hmax with ⟨k, hk⟩
      rw [hk]
      simp [List.take_cons]

end Rrlmgraph

namespace Rrlmgraph

variable {α : Type} [LinearOrderedField α]

/-- C3 does not hold as stated: `queryContext` returns the seed node's
*identifier* in `seed_node`, not the supplied display name, and a small
budget can reject the seed's block so that its id is missing from
`node_ids`.  Here the node named `alpha` has id `n1`, and with budget 1 its
block (5 estimated tokens) is rejected. -/
theorem claim3_counterexample :
    ¬ ((queryContext qMath alphaSnap "" (some "alpha") 1 3 80).seed_node =
        some "alpha" ∧
      "n1" ∈ (queryContext qMath alphaSnap "" (some "alpha") 1 3 80).node_ids) := by
  decide

/-- C3 (amended): when a non-empty `seedName` matches the display name of a
stored node, `queryContext` resolves the seed to that node's *id* and
returns it in `seed_node`; and its id is a member of `node_ids` provided
`maxNodes ≥ 1` and the total cost of all rendered candidates fits the
budget (so the assembler does not reject the seed's block). -/
theorem claim3_seed_resolution_amended (M : JsMath α) (s : Snapshot α)
    (query nm : String) (node : NodeRow α) (B : α) (maxDepth maxNodes : Nat)
    (hnm : nm ≠ "")
    (hfind : s.nodes.find? (fun n => n.name = nm) = some node) :
    (queryContext M s query (some nm) B maxDepth maxNodes).seed_node =
      some node.node_id ∧
    (1 ≤ maxNodes →
      (((renderedCandidates M s node.node_id query maxDepth maxNodes).map
        (fun it => estimateTokens it.2.length)).sum : α) ≤ B →
      node.node_id ∈
        (queryContext M s query (some nm) B maxDepth maxNodes).node_ids) := by
  have h1 : seedByName s.nodes (some nm) = some node.node_id := by
    simp [seedByName, if_neg hnm, hfind]
  have hseed : findSeedNode M s query (some nm) = some node.node_id := by
    unfold findSeedNode
    rw [h1]
  constructor
  · unfold queryContext
    rw [hseed]
  · intro hmax hbudget
    unfold queryContext
    rw [hseed]
    have hall : (assembleGo B
        (renderedCandidates M s node.node_id query maxDepth maxNodes) 0).1 =
        renderedCandidates M s node.node_id query maxDepth maxNodes := by
      apply assembleGo_accepts_all
      simpa using hbudget
    -- the seed's row is among the BFS candidates, hence among the rendered ones
    have hrowfind : ∃ row, s.nodes.find? (fun n => n.node_id = node.node_id) =
        some row := by
      have hmem : node ∈ s.nodes := List.mem_of_find?_eq_some hfind
      have : (s.nodes.find? (fun n => n.node_id = node.node_id)).isSome := by
        rw [List.find?_isSome]
        exact ⟨node, hmem, by simp⟩
      exact Option.isSome_iff_exists.mp this
    obtain ⟨row, hrow⟩ := hrowfind
    have hrowkey : row.node_id = node.node_id := by
      simpa using List.find?_some hrow
    have hbfs : (row, 0) ∈ bfsRows s node.node_id maxDepth maxNodes :=
      seed_mem_bfsRows hrow hmax
    have hscored : (row, 0) ∈ scoredCandidates M s node.node_id query maxDepth maxNodes := by
      unfold scoredCandidates
      exact (List.perm_insertionSort _ _).mem_iff.mpr hbfs
    have hrend : (row.node_id, formatNodeContext s row) ∈
        renderedCandidates M s node.node_id query maxDepth maxNodes := by
      unfold renderedCandidates
      exact List.mem_map.mpr ⟨(row, 0), hscored, rfl⟩
    have hmm : row.node_id ∈ (renderedCandidates M s node.node_id query
        maxDepth maxNodes).map Prod.fst :=
      List.mem_map.mpr ⟨(row.node_id, formatNodeContext s row), hrend, rfl⟩
    rw [hrowkey] at hmm
    simpa [hall] using hmm

/-- Closed witness for the amended C3: with a generous budget, the seed
resolved from the name `alpha` is returned as id `n1` and included in
`node_ids`. -/
theorem claim3_witness :
    (queryContext qMath alphaSnap "" (some "alpha") 6000 3 80).seed_node =
      some "n1" ∧
    "n1" ∈ (queryContext qMath alphaSnap "" (some "alpha") 6000 3 80).node_ids := by
  have h := claim3_seed_resolution_amended qMath alphaSnap "" "alpha"
    (mkNode "n1" "alpha") 6000 3 80 (by decide) (by decide)
  exact ⟨h.1, h.2 (by decide) (by decide)⟩

end Rrlmgraph

namespace Rrlmgraph

variable {α : Type} [LinearOrderedField α]

/-! ### Lemmas about the `tf` map, leading to C6 -/

theorem bumpTF_alGet_same : ∀ (l : List (String × Nat)) (t : String),
    alGet (bumpTF l t) t = alGet l t + 1 := by
  intro l
  induction l with
  | nil => intro t; simp [bumpTF, alGet]
  | cons p rest ih =>
      intro t
      obtain ⟨s, c⟩ := p
      by_cases hc : s = t
      · subst hc
        simp [bumpTF, alGet, List.find?_cons_of_pos]
      · have hbump : bumpTF ((s, c) :: rest) t = (s, c) :: bumpTF rest t := by
          simp [bumpTF, hc]
        rw [hbump]
        have hskip : ∀ (l' : List (String × Nat)),
            alGet ((s, c) :: l') t = alGet l' t := by
          intro l'
          simp [alGet, List.find?_cons_of_neg, hc]
        rw [hskip, hskip]
        exact ih t

theorem bumpTF_alGet_ne {s t : String} (hst : s ≠ t) :
    ∀ (l : List (String × Nat)), alGet (bumpTF l t) s = alGet l s := by
  intro l
  have hts : t ≠ s := fun h => hst h.symm
  induction l with
  | nil =>
      simp [bumpTF, alGet, hts]
  | cons p rest ih =>
      obtain ⟨u, c⟩ := p
      by_cases hc : u = t
      · subst hc
        have hus : u ≠ s := fun h => hst h.symm
        simp [bumpTF, alGet, List.find?_cons_of_neg, hus]
      · have hbump : bumpTF ((u, c) :: rest) t = (u, c) :: bumpTF rest t := by
          simp [bumpTF, hc]
        rw [hbump]
        by_cases hus : u = s
        · subst hus
          simp [alGet, List.find?_cons_of_pos]
        · have hskip : ∀ (l' : List (String × Nat)),
              alGet ((u, c) :: l') s = alGet l' s := by
            intro l'
            simp [alGet, List.find?_cons_of_neg, hus]
          rw [hskip, hskip]
          exact ih

theorem foldl_bumpTF_alGet :
    ∀ (tokens : List String) (acc : List (String × Nat)) (t : String),
      alGet (tokens.foldl bumpTF acc) t = alGet acc t + tokens.count t := by
  intro tokens
  induction tokens with
  | nil => intro acc t; simp
  | cons u rest ih =>
      intro acc t
      simp only [List.foldl_cons]
      rw [ih (bumpTF acc u) t]
      by_cases hc : u = t
      · subst hc
        rw [bumpTF_alGet_same]
        simp [List.count_cons]
        omega
      · rw [bumpTF_alGet_ne (fun h => hc h.symm)]
        have : (u :: rest).count t = rest.count t := by
          simp [List.count_cons, hc]
        rw [this]

theorem bumpTF_keys : ∀ (l : List (String × Nat)) (t : String),
    (bumpTF l t).map Prod.fst =
      if t ∈ l.map Prod.fst then l.map Prod.fst
      else l.map Prod.fst ++ [t] := by
  intro l
  induction l with
  | nil => intro t; simp [bumpTF]
  | cons p rest ih =>
      intro t
      obtain ⟨s, c⟩ := p
      by_cases hc : s = t
      · subst hc
        simp [bumpTF]
      · have hts : t ≠ s := fun h => hc h.symm
        have hbump : bumpTF ((s, c) :: rest) t = (s, c) :: bumpTF rest t := by
          simp [bumpTF, hc]
        rw [hbump]
        simp only [List.map_cons, ih t]
        by_cases hm : t ∈ rest.map Prod.fst
        · rw [if_pos hm, if_pos (List.mem_cons_of_mem s hm)]
        · have hnot : t ∉ s :: rest.map Prod.fst := by
            intro h
            rcases List.mem_cons.mp h with h1 | h1
            · exact hts h1
            · exact hm h1
          rw [if_neg hm, if_neg hnot]
          simp

theorem foldl_bumpTF_keys_nodup :
    ∀ (tokens : List String) (acc : List (String × Nat)),
      (acc.map Prod.fst).Nodup → ((tokens.foldl bumpTF acc).map Prod.fst).Nodup := by
  intro tokens
  induction tokens with
  | nil => intro acc h; exact h
  | cons u rest ih =>
      intro acc h
      simp only [List.foldl_cons]
      refine ih (bumpTF acc u) ?_
      rw [bumpTF_keys]
      by_cases hm : u ∈ acc.map Prod.fst
      · rw [if_pos hm]; exact h
      · rw [if_neg hm]
        simp [List.nodup_append, h, hm]

theorem tfList_keys_nodup (tokens : List String) :
    ((tfList tokens).map Prod.fst).Nodup :=
  foldl_bumpTF_keys_nodup tokens [] (by simp)

theorem mem_alGet : ∀ {l : List (String × Nat)}, (l.map Prod.fst).Nodup →
    ∀ {t : String} {c : Nat}, (t, c) ∈ l → alGet l t = c := by
  intro l
  induction l with
  | nil => intro _ t c h; exact absurd h (by simp)
  | cons p rest ih =>
      intro hnd t c hmem
      obtain ⟨s, c'⟩ := p
      rcases List.mem_cons.mp hmem with heq | hmem'
      · obtain ⟨rfl, rfl⟩ := Prod.mk.injEq .. ▸ heq
        simp [alGet, List.find?_cons_of_pos]
      · have hs : s ≠ t := by
          intro hst
          subst hst
          have : s ∈ rest.map Prod.fst :=
            List.mem_map.mpr ⟨(s, c), hmem', rfl⟩
          exact (List.nodup_cons.mp (by simpa using hnd)).1 this
        have hskip : alGet ((s, c') :: rest) t = alGet rest t := by
          simp [alGet, List.find?_cons_of_neg, hs]
        rw [hskip]
        exact ih (List.Nodup.of_cons (by simpa using hnd)) hmem'

theorem mem_tfList_count {tokens : List String} {t : String} {c : Nat}
    (h : (t, c) ∈ tfList tokens) : c = tokens.count t := by
  have h1 : alGet (tfList tokens) t = c := mem_alGet (tfList_keys_nodup tokens) h
  have h2 : alGet (tfList tokens) t = alGet [] t + tokens.count t :=
    foldl_bumpTF_alGet tokens [] t
  rw [h1] at h2
  simpa [alGet] using h2

/-- Every entry of the constructed query vector comes from a vocabulary
term and carries the log-normalised TF-IDF weight for that term's
occurrence count in the query. -/
theorem mem_buildQueryVector {log : α → α} {q : String}
    {vocab : List (TfidfVocabRow α)} {t : String} {w : α}
    (h : (t, w) ∈ buildQueryVector log q vocab) :
    ∃ row ∈ vocab, row.term = t ∧
      w = log (1 + ((tokenize q).count t : α)) /
          log (1 + ((tokenize q).length : α)) * row.idf := by
  unfold buildQueryVector at h
  obtain ⟨⟨t', c⟩, htf, hmatch⟩ := List.mem_filterMap.mp h
  cases hv : vocab.find? (fun r => r.term = t') with
  | none => rw [hv] at hmatch; exact absurd hmatch (by simp)
  | some row =>
      rw [hv] at hmatch
      simp only [Option.some.injEq, Prod.mk.injEq] at hmatch
      obtain ⟨ht, hw⟩ := hmatch
      subst ht
      have hc : c = (tokenize q).count t' := mem_tfList_count htf
      refine ⟨row, List.mem_of_find?_eq_some hv,
        by simpa using List.find?_some hv, ?_⟩
      rw [← hw, hc]

end Rrlmgraph

namespace Rrlmgraph

/-- C6: `buildQueryVector` assigns each vocabulary-known query token the
weight `log(1 + count(t)) / log(1 + totalTokens) * idf`; tokens absent from
the vocabulary are absent from the vector; the empty query gives the empty
vector; and concretely, `"query context query"` against
`{query ↦ idf 0.8}` gives the single weight `log 3 / log 4 * 0.8`, which is
not the proportional-TF value `(2/3) * 0.8`. -/
theorem claim6_log_normalised_tf :
    (∀ (log : ℝ → ℝ) (q : String) (vocab : List (TfidfVocabRow ℝ))
      (t : String) (w : ℝ), (t, w) ∈ buildQueryVector log q vocab →
      ∃ row ∈ vocab, row.term = t ∧
        w = log (1 + ((tokenize q).count t : ℝ)) /
            log (1 + ((tokenize q).length : ℝ)) * row.idf) ∧
    (∀ (log : ℝ → ℝ) (q : String) (vocab : List (TfidfVocabRow ℝ))
      (t : String) (w : ℝ), (∀ row ∈ vocab, row.term ≠ t) →
      (t, w) ∉ buildQueryVector log q vocab) ∧
    (∀ (log : ℝ → ℝ) (vocab : List (TfidfVocabRow ℝ)),
      buildQueryVector log "" vocab = []) ∧
    buildQueryVector Real.log "query context query"
        [⟨"query", 0.8, 0, 0⟩] =
      [("query", Real.log 3 / Real.log 4 * 0.8)] ∧
    Real.log 3 / Real.log 4 * 0.8 ≠ 2 / 3 * 0.8 := by
  refine ⟨fun log q vocab t w h => mem_buildQueryVector h, ?_, ?_, ?_, ?_⟩
  · intro log q vocab t w habs hmem
    obtain ⟨row, hrow, hterm, -⟩ := mem_buildQueryVector hmem
    exact habs row hrow hterm
  · intro log vocab
    simp [buildQueryVector, show tokenize "" = [] from by decide, tfList]
  · have htok : tokenize "query context query" =
        ["query", "context", "query"] := by decide
    have htf : tfList ["query", "context", "query"] =
        [("query", 2), ("context", 1)] := by decide
    simp only [buildQueryVector, htok, htf]
    simp only [List.filterMap_cons, List.find?]
    norm_num
    simp
  · intro h
    have h08 : (0.8 : ℝ) ≠ 0 := by norm_num
    have hratio : Real.log 3 / Real.log 4 = 2 / 3 :=
      mul_right_cancel₀ h08 h
    have hlog4 : 0 < Real.log 4 := Real.log_pos (by norm_num)
    have hcross : Real.log 3 * 3 = 2 * Real.log 4 := by
      have := (div_eq_div_iff hlog4.ne' (by norm_num : (3:ℝ) ≠ 0)).mp hratio
      linarith
    have h27 : Real.log 27 = 3 * Real.log 3 := by
      rw [show (27:ℝ) = 3 ^ (3:ℕ) from by norm_num, Real.log_pow]
      norm_num
    have h16 : Real.log 16 = 2 * Real.log 4 := by
      rw [show (16:ℝ) = 4 ^ (2:ℕ) from by norm_num, Real.log_pow]
      norm_num
    have hlt : Real.log 16 < Real.log 27 :=
      Real.log_lt_log (by norm_num) (by norm_num)
    rw [h16, h27, ← hcross] at hlt
    linarith

/-- Closed witness for C6: the unknown token `context` is absent from the
vector built over the one-term vocabulary. -/
theorem claim6_witness :
    ("context", (0 : ℝ)) ∉ buildQueryVector Real.log "query context query"
      [⟨"query", 0.8, 0, 0⟩] :=
  claim6_log_normalised_tf.2.1 Real.log "query context query"
    [⟨"query", 0.8, 0, 0⟩] "context" 0
    (by intro row hrow; simp at hrow; rw [hrow]; decide)

end Rrlmgraph

namespace Rrlmgraph

/-- C7: the blended BFS-candidate score is
`0.40·s + 0.25·centrality + 0.25·task_weight + 0.10·(1/(1+depth·0.5))`
with centrality defaulting to 0 and task_weight to 0.5 when absent
(`getD`), where `s` is the cosine similarity of the query vector against
the leading `N` embedding components; and `s` is 0 when the node has no
embedding, the query vector is absent/empty, the lengths mismatch (a short
embedding), or either vector has zero norm. -/
theorem claim7_blended_score_formula :
    (∀ (M : JsMath ℝ) (qv emb : List ℝ) (node : NodeRow ℝ) (depth : Nat),
      node.embedding = some emb →
      computeScore M (some qv) node depth =
        0.4 * cosineSimilarity M.sqrt qv (emb.take qv.length) +
        0.25 * node.pagerank.getD 0 + 0.25 * node.task_weight.getD 0.5 +
        0.1 * (1 / (1 + (depth : ℝ) * 0.5))) ∧
    (∀ (M : JsMath ℝ) (qvArr : Option (List ℝ)) (node : NodeRow ℝ)
      (depth : Nat), node.embedding = none →
      computeScore M qvArr node depth =
        0.4 * 0 + 0.25 * node.pagerank.getD 0 +
        0.25 * node.task_weight.getD 0.5 +
        0.1 * (1 / (1 + (depth : ℝ) * 0.5))) ∧
    (∀ (M : JsMath ℝ) (node : NodeRow ℝ) (depth : Nat),
      computeScore M none node depth =
        0.4 * 0 + 0.25 * node.pagerank.getD 0 +
        0.25 * node.task_weight.getD 0.5 +
        0.1 * (1 / (1 + (depth : ℝ) * 0.5))) ∧
    (∀ (sqrt : ℝ → ℝ) (qv emb : List ℝ), emb.length < qv.length →
      cosineSimilarity sqrt qv (emb.take qv.length) = 0) ∧
    (∀ (sqrt : ℝ → ℝ) (b : List ℝ), cosineSimilarity sqrt [] b = 0) ∧
    (∀ (qv b : List ℝ), (qv.map (fun x => x * x)).sum = 0 →
      cosineSimilarity Real.sqrt qv b = 0) ∧
    (∀ (qv b : List ℝ), (b.map (fun x => x * x)).sum = 0 →
      cosineSimilarity Real.sqrt qv b = 0) := by
  refine ⟨?_, ?_, ?_, ?_, ?_, ?_, ?_⟩
  · intro M qv emb node depth hemb
    simp [computeScore, hemb]
  · intro M qvArr node depth hemb
    cases qvArr <;> simp [computeScore, hemb]
  · intro M node depth
    cases hemb : node.embedding <;> simp [computeScore, hemb]
  · intro sqrt qv emb h
    have hlen : (emb.take qv.length).length = emb.length := by
      rw [List.length_take]
      exact Nat.min_eq_right (Nat.le_of_lt h)
    unfold cosineSimilarity
    rw [if_pos]
    left
    rw [hlen]
    exact (Nat.ne_of_lt h).symm
  · intro sqrt b
    simp [cosineSimilarity]
  · intro qv b h
    unfold cosineSimilarity
    by_cases hguard : qv.length ≠ b.length ∨ qv.length = 0
    · rw [if_pos hguard]
    · rw [if_neg hguard, h, Real.sqrt_zero, zero_mul, if_pos rfl]
  · intro qv b h
    unfold cosineSimilarity
    by_cases hguard : qv.length ≠ b.length ∨ qv.length = 0
    · rw [if_pos hguard]
    · rw [if_neg hguard, h, Real.sqrt_zero, mul_zero, if_pos rfl]

/-- Closed witness for C7: a node without embedding scores exactly the
structural part of the formula, with the defaults applied. -/
theorem claim7_witness :
    computeScore (⟨Real.log, Real.sqrt, fun _ _ => 0⟩ : JsMath ℝ) none
        (⟨"n", "n", none, none, none, none, none, none, none, none, none,
          none, none⟩ : NodeRow ℝ) 0 =
      0.4 * 0 +
      0.25 * ((none : Option ℝ).getD 0) +
      0.25 * ((none : Option ℝ).getD 0.5) +
      0.1 * (1 / (1 + ((0 : Nat) : ℝ) * 0.5)) :=
  claim7_blended_score_formula.2.1 ⟨Real.log, Real.sqrt, fun _ _ => 0⟩ none
    ⟨"n", "n", none, none, none, none, none, none, none, none, none, none,
      none⟩ 0 rfl

end Rrlmgraph
